import Mathlib

/-!
Shallow Lean embedding of the core of the `lsm-tree` storage engine:

* `src/value.rs` — `ValueType`, `InternalValue`, their (de)serialization
  and constructors;
* `src/level_manifest/level.rs` — `Level` and its mutation / query
  operations;
* `src/segment/mod.rs` — `Segment::get` (point reads, with and without a
  snapshot sequence number).

Byte strings are modelled as `List Nat`, machine integers as `Nat` with
explicit `% 2^w` truncation where the source casts.  Panics are modelled
as `none` / `Except.error`, fallible deserialization as `Option`.
Parts of the repository that are referenced but whose files are not in
the source tree (`key.rs`, `key_range.rs`, the block index and reader)
are modelled from the specification and marked `Modelled from the spec`.
-/

/-- User keys and values are arbitrary byte strings (`Slice`), modelled as
lists of naturals; comparisons use the lexicographic order, matching
Rust's slice ordering. -/
abbrev UserKey := List Nat

/-- Value type (regular value or tombstone), from `src/value.rs`. -/
inductive ValueType
  | value
  | tombstone
  | weakTombstone
deriving DecidableEq

/-- From `src/value.rs`, `impl From<ValueType> for u8`:
`Value ↦ 0`, `Tombstone ↦ 1`, `WeakTombstone ↦ 2`. -/
def ValueType.toU8 : ValueType → Nat
  | .value => 0
  | .tombstone => 1
  | .weakTombstone => 2

/-- From `src/value.rs`, `impl From<u8> for ValueType`: the byte `0` maps
to `Value` and every other byte maps to `Tombstone`. -/
def ValueType.fromU8 (b : Nat) : ValueType :=
  if b = 0 then .value else .tombstone

/-- Modelled from the spec (`src/key.rs` is not in the source tree):
`InternalKey` is `(user_key, seqno, value_type)`. -/
structure InternalKey where
  user_key : UserKey
  seqno : Nat
  value_type : ValueType
deriving DecidableEq

/-- Internal representation of KV pairs, from `src/value.rs`:
an internal key together with the user value. -/
structure InternalValue where
  key : InternalKey
  value : List Nat
deriving DecidableEq

/-- Big-endian 2-byte encoding of `n % 2^16` (a Rust `as u16` cast
followed by `write_u16::<BigEndian>`). -/
def u16be (n : Nat) : List Nat :=
  [n / 2 ^ 8 % 256, n % 256]

/-- Big-endian 4-byte encoding of `n % 2^32` (a Rust `as u32` cast
followed by `write_u32::<BigEndian>`). -/
def u32be (n : Nat) : List Nat :=
  [n / 2 ^ 24 % 256, n / 2 ^ 16 % 256, n / 2 ^ 8 % 256, n % 256]

/-- Big-endian 8-byte encoding of `n % 2^64` (`write_u64::<BigEndian>`). -/
def u64be (n : Nat) : List Nat :=
  [n / 2 ^ 56 % 256, n / 2 ^ 48 % 256, n / 2 ^ 40 % 256, n / 2 ^ 32 % 256,
   n / 2 ^ 24 % 256, n / 2 ^ 16 % 256, n / 2 ^ 8 % 256, n % 256]

/-- Big-endian decoding of a byte list back into a natural number. -/
def beToNat (bs : List Nat) : Nat :=
  bs.foldl (fun acc b => acc * 256 + b) 0

/-- `read_exact` on a byte stream: take exactly `n` bytes, failing (I/O
error `UnexpectedEof`) when fewer remain. -/
def readExact (n : Nat) (bs : List Nat) : Option (List Nat × List Nat) :=
  if n ≤ bs.length then some (bs.take n, bs.drop n) else none

/-- Modelled from the spec (§4.D, `src/key.rs` missing): the internal-key
encoding `u16 key_len | key_bytes | u64 seqno | u8 type`. -/
def InternalKey.serialize (k : InternalKey) : List Nat :=
  u16be k.user_key.length ++ k.user_key ++ u64be k.seqno ++ [k.value_type.toU8]

/-- Modelled from the spec (§4.D, `src/key.rs` missing): internal-key
decoding; the value-type byte is interpreted by the source's
`From<u8> for ValueType` (`ValueType.fromU8`). -/
def InternalKey.deserialize (bs : List Nat) : Option (InternalKey × List Nat) := do
  let (lenB, bs) ← readExact 2 bs
  let (keyB, bs) ← readExact (beToNat lenB) bs
  let (seqB, bs) ← readExact 8 bs
  let (tB, bs) ← readExact 1 bs
  pure (⟨keyB, beToNat seqB, ValueType.fromU8 (beToNat tB)⟩, bs)

/-- From `src/value.rs`, `impl Serializable for InternalValue`: the key,
then `u32 value_len` (with `as u32` truncation), then the value bytes. -/
def InternalValue.serialize (v : InternalValue) : List Nat :=
  v.key.serialize ++ u32be v.value.length ++ v.value

/-- From `src/value.rs`, `impl Deserializable for InternalValue`:
the key, then a `u32` length, then that many value bytes. -/
def InternalValue.deserialize (bs : List Nat) : Option (InternalValue × List Nat) := do
  let (k, bs) ← InternalKey.deserialize bs
  let (lenB, bs) ← readExact 4 bs
  let (valB, bs) ← readExact (beToNat lenB) bs
  pure (⟨k, valB⟩, bs)

/-- Modelled from the spec (`src/key.rs` missing): `InternalKey::new`
panics (modelled as `none`) when the user key is empty or longer than
the `u16` bound — the spec bounds key length to `2^16 − 1` bytes and the
source's doc comments state the panic on over-long keys. -/
def InternalKey.new (user_key : UserKey) (seqno : Nat) (t : ValueType) :
    Option InternalKey :=
  if user_key = [] then none
  else if 65535 < user_key.length then none
  else some ⟨user_key, seqno, t⟩

/-- From `src/value.rs`, `InternalValue::new`: asserts (modelled as
`none`) that the key is non-empty and that the value length fits in a
`u32`. -/
def InternalValue.new (key : InternalKey) (value : List Nat) :
    Option InternalValue :=
  if key.user_key = [] then none
  else if 4294967295 < value.length then none
  else some ⟨key, value⟩

/-- From `src/value.rs`, `InternalValue::from_components`: build the
internal key, then `InternalValue::new`. -/
def InternalValue.from_components (user_key : UserKey) (value : List Nat)
    (seqno : Nat) (t : ValueType) : Option InternalValue :=
  (InternalKey.new user_key seqno t).bind fun k => InternalValue.new k value

/-- From `src/value.rs`, `InternalValue::new_tombstone`. -/
def InternalValue.new_tombstone (key : UserKey) (seqno : Nat) :
    Option InternalValue :=
  (InternalKey.new key seqno .tombstone).bind fun k => InternalValue.new k []

/-- From `src/value.rs`, `InternalValue::new_weak_tombstone`. -/
def InternalValue.new_weak_tombstone (key : UserKey) (seqno : Nat) :
    Option InternalValue :=
  (InternalKey.new key seqno .weakTombstone).bind fun k => InternalValue.new k []


/-- Modelled from the spec (`src/key_range.rs` missing): an inclusive
`(min, max)` user-key interval. -/
structure KeyRange where
  min : UserKey
  max : UserKey
deriving DecidableEq

/-- Modelled from the spec (§4.A): `KeyRange::contains_key` —
`min ≤ k ≤ max`. -/
def KeyRange.contains_key (r : KeyRange) (k : UserKey) : Prop :=
  r.min ≤ k ∧ k ≤ r.max

instance (r : KeyRange) (k : UserKey) : Decidable (r.contains_key k) :=
  inferInstanceAs (Decidable (_ ∧ _))

/-- Modelled from the spec (§3): two key ranges overlap iff
`a.min ≤ b.max ∧ b.min ≤ a.max`. -/
def KeyRange.overlaps_with_key_range (a b : KeyRange) : Prop :=
  a.min ≤ b.max ∧ b.min ≤ a.max

instance (a b : KeyRange) : Decidable (a.overlaps_with_key_range b) :=
  inferInstanceAs (Decidable (_ ∧ _))

/-- Comparison of key ranges by minimum key, the sort key of the
disjointness check and of `Level::sort_by_key_range`. -/
def KeyRange.minLe (a b : KeyRange) : Prop := a.min ≤ b.min

instance : DecidableRel KeyRange.minLe := fun _ _ =>
  inferInstanceAs (Decidable (_ ≤ _))

instance : IsTotal KeyRange KeyRange.minLe := ⟨fun a b => le_total a.min b.min⟩

instance : IsTrans KeyRange KeyRange.minLe := ⟨fun _ _ _ h h2 => le_trans h h2⟩

/-- Strict comparison of key ranges by minimum key. -/
def KeyRange.minLt (a b : KeyRange) : Prop := a.min < b.min

instance : IsTrans KeyRange KeyRange.minLt := ⟨fun _ _ _ h h2 => lt_trans h h2⟩

instance : IsAntisymm KeyRange KeyRange.minLt :=
  ⟨fun _ _ h h2 => absurd h (lt_asymm h2)⟩

/-- Modelled from the spec (§4.A): `KeyRange::is_disjoint` — sort the
ranges by `min`, then check that no adjacent pair overlaps. -/
def KeyRange.is_disjoint (rs : List KeyRange) : Bool :=
  decide (List.Chain' (fun a b => ¬ a.overlaps_with_key_range b)
    (rs.insertionSort KeyRange.minLe))

/-- A structurally valid key range has `min ≤ max`; spec invariant 2
guarantees this for the key range of every real segment. -/
def KeyRange.valid (r : KeyRange) : Prop := r.min ≤ r.max

instance (r : KeyRange) : Decidable r.valid :=
  inferInstanceAs (Decidable (_ ≤ _))

/-- Segment metadata — the fields the embedded operations consume —
from `src/segment/meta.rs` via `src/segment/mod.rs` and
`src/level_manifest/level.rs`. -/
structure SegmentMetadata where
  id : Nat
  file_size : Nat
  key_range : KeyRange
  seqnos : Nat × Nat

/-- A disk segment: metadata, the decoded data blocks in on-disk order
(standing for the block index and value blocks consumed by
`src/segment/mod.rs`), and the bloom filter membership predicate. -/
structure Segment where
  metadata : SegmentMetadata
  blocks : List (List InternalValue)
  bloom_filter : UserKey → Bool

/-- `Level::sort_by_key_range` comparator: `key_range` minimum,
ascending (`src/level_manifest/level.rs`). -/
def Segment.minLe (a b : Segment) : Prop :=
  a.metadata.key_range.min ≤ b.metadata.key_range.min

instance : DecidableRel Segment.minLe := fun _ _ =>
  inferInstanceAs (Decidable (_ ≤ _))

instance : IsTotal Segment Segment.minLe := ⟨fun a b => le_total _ _⟩

instance : IsTrans Segment Segment.minLe := ⟨fun _ _ _ h h2 => le_trans h h2⟩

/-- `Level::sort_by_seqno` comparator: maximum seqno, descending
(newest segment first). -/
def Segment.seqnoGe (a b : Segment) : Prop :=
  b.metadata.seqnos.2 ≤ a.metadata.seqnos.2

instance : DecidableRel Segment.seqnoGe := fun _ _ =>
  inferInstanceAs (Decidable (_ ≤ _))

instance : IsTotal Segment Segment.seqnoGe := ⟨fun a b => le_total _ _⟩

instance : IsTrans Segment Segment.seqnoGe := ⟨fun _ _ _ h h2 => le_trans h2 h⟩

/-- Level of an LSM-tree (`src/level_manifest/level.rs`): the segment
list and the cached `is_disjoint` flag. -/
structure Level where
  segments : List Segment
  is_disjoint : Bool

/-- `Level::set_disjoint_flag`: recompute `is_disjoint` from the
current segments' key ranges. -/
def Level.set_disjoint_flag (l : Level) : Level :=
  { l with is_disjoint :=
      KeyRange.is_disjoint (l.segments.map fun x => x.metadata.key_range) }

/-- `Level::sort`: by key range when the level is disjoint, else by
seqno (newest first). -/
def Level.sort (l : Level) : Level :=
  if l.is_disjoint then
    { l with segments := l.segments.insertionSort Segment.minLe }
  else
    { l with segments := l.segments.insertionSort Segment.seqnoGe }

/-- `Level::insert`: push the segment, recompute the flag, re-sort. -/
def Level.insert (l : Level) (s : Segment) : Level :=
  Level.sort (Level.set_disjoint_flag { l with segments := l.segments ++ [s] })

/-- `Level::remove`: retain segments with a different id, recompute the
flag, re-sort. -/
def Level.remove (l : Level) (id : Nat) : Level :=
  Level.sort (Level.set_disjoint_flag
    { l with segments := l.segments.filter fun x => id ≠ x.metadata.id })

/-- `Level::overlapping_segments`: the segments whose key range overlaps
the query range, in list order. -/
def Level.overlapping_segments (l : Level) (r : KeyRange) : List Segment :=
  l.segments.filter fun x => x.metadata.key_range.overlaps_with_key_range r

/-- Rust `slice::partition_point` on a partitioned slice: the index of
the first element that does not satisfy the predicate (the length when
all do). -/
def partitionPoint {α : Type} (p : α → Bool) (l : List α) : Nat :=
  l.findIdx fun x => !p x

/-- `Level::get_segment_containing_key`: panics (`Except.error ()`) when
the level is not disjoint; otherwise returns the segment at the
partition point of `key_range.max < key`. -/
def Level.get_segment_containing_key (l : Level) (k : UserKey) :
    Except Unit (Option Segment) :=
  if l.is_disjoint then
    .ok l.segments[partitionPoint
        (fun x => decide (x.metadata.key_range.max < k)) l.segments]?
  else .error ()

/-- The user key of the last item of a data block (blocks are non-empty
in well-formed segments). -/
def lastUserKey (b : List InternalValue) : UserKey :=
  (b.getLast?.map fun it => it.key.user_key).getD []

/-- All items of a segment, in on-disk (ascending internal-key) order. -/
def Segment.items (s : Segment) : List InternalValue := s.blocks.flatten

/-- Modelled from the spec (§4.I, block-index files missing): the
two-level index lookup `get_lowest_data_block_handle_containing_item` —
the lowest data block whose last key is `≥ key`, `none` when the key is
past the last entry. -/
def Segment.lowest_data_block (s : Segment) (key : UserKey) :
    Option (List InternalValue) :=
  s.blocks.find? fun b => decide (key ≤ lastUserKey b)

/-- Modelled from the spec (§4.K, `reader.rs` missing): a forward
`Reader` with lower bound `key` yields the items in order, starting at
the first item whose user key is `≥ key`. -/
def Segment.readerFrom (s : Segment) (key : UserKey) : List InternalValue :=
  s.items.dropWhile fun it => decide (it.key.user_key < key)

/-- The reader loop of `Segment::get` (`src/segment/mod.rs`): stop at
the first item past the key; under a snapshot, return the first item
with `seqno < snapshot`, otherwise the first item. -/
def getLoop (key : UserKey) (seqno : Option Nat) :
    List InternalValue → Option InternalValue
  | [] => none
  | it :: rest =>
    if it.key.user_key ≠ key then none
    else
      match seqno with
      | some sq => if it.key.seqno < sq then some it else getLoop key seqno rest
      | none => some it

/-- `Segment::get` from `src/segment/mod.rs`: the seqno short-circuit,
key-range check and bloom check, then the no-snapshot fast path through
the block index, falling back to the reader path. -/
def Segment.get (s : Segment) (key : UserKey) (seqno : Option Nat) :
    Option InternalValue :=
  if (match seqno with
      | some sq => decide (sq ≤ s.metadata.seqnos.1)
      | none => false) then none
  else if ¬ s.metadata.key_range.contains_key key then none
  else if s.bloom_filter key = false then none
  else
    match seqno with
    | none =>
      match s.lowest_data_block key with
      | some block => block.find? fun it => decide (it.key.user_key = key)
      | none => getLoop key none (s.readerFrom key)
    | some sq => getLoop key (some sq) (s.readerFrom key)

/-- Strict internal-key ordering (spec §3): ascending user key, then
descending seqno. -/
def ikLt (a b : InternalValue) : Prop :=
  a.key.user_key < b.key.user_key
    ∨ (a.key.user_key = b.key.user_key ∧ b.key.seqno < a.key.seqno)

instance (a b : InternalValue) : Decidable (ikLt a b) :=
  inferInstanceAs (Decidable (_ ∨ _))

/-- Well-formed segment: non-empty blocks, items strictly sorted by
internal key, and key range, bloom filter and seqno interval consistent
with the stored records (spec invariants 2-4 and §4.H). -/
structure SegmentWF (s : Segment) : Prop where
  blocks_nonempty : ∀ b ∈ s.blocks, b ≠ []
  items_sorted : List.Pairwise ikLt s.items
  key_range_ok : ∀ it ∈ s.items, s.metadata.key_range.contains_key it.key.user_key
  bloom_ok : ∀ it ∈ s.items, s.bloom_filter it.key.user_key = true
  seqnos_ok : ∀ it ∈ s.items, s.metadata.seqnos.1 ≤ it.key.seqno

/-- Fixture segment (mirroring the `fixture_segment` test helper):
only the id and key range matter for level operations. -/
def fixtureSegment (id : Nat) (r : KeyRange) : Segment :=
  ⟨⟨id, 0, r, (0, 0)⟩, [], fun _ => true⟩

/-- Concrete well-formed segment used as a witness input: two data
blocks holding three records over the user keys [1] and [2]. -/
def testSegment : Segment :=
  ⟨⟨7, 0, ⟨[1], [2]⟩, (3, 6)⟩,
   [[⟨⟨[1], 6, .value⟩, [9]⟩, ⟨⟨[1], 4, .tombstone⟩, []⟩],
    [⟨⟨[2], 3, .value⟩, [7]⟩]],
   fun _ => true⟩
example :
    InternalValue.deserialize (InternalValue.serialize ⟨⟨[1, 2, 3], 1, .value⟩, [3, 2, 1]⟩)
      = some (⟨⟨[1, 2, 3], 1, .value⟩, [3, 2, 1]⟩, []) := by decide

example :
    InternalValue.serialize ⟨⟨[1, 2, 3], 1, .value⟩, [3, 2, 1]⟩
      = [0, 3, 1, 2, 3, 0, 0, 0, 0, 0, 0, 0, 1, 0, 0, 0, 0, 3, 3, 2, 1] := by decide

/-- C1: the spec claims `deserialize(serialize(v)) = v` for every
`InternalValue`, byte-for-byte including the value type.  The code fails
this for `WeakTombstone`: it serializes to the type byte `2`, which
`From<u8> for ValueType` folds back into `Tombstone`, so the
round-trip loses the value type. -/
theorem weak_tombstone_round_trip_lost :
    InternalValue.deserialize
        (InternalValue.serialize ⟨⟨[1], 0, .weakTombstone⟩, []⟩)
      = some (⟨⟨[1], 0, .tombstone⟩, []⟩, [])
  ∧ (⟨⟨[1], 0, .tombstone⟩, []⟩ : InternalValue)
      ≠ ⟨⟨[1], 0, .weakTombstone⟩, []⟩ :=
  ⟨by decide, by decide⟩

/-- C2: the spec requires an unknown value-type byte (here `3`) to be
rejected with a `Deserialize` error, but `From<u8> for ValueType` is
total: byte `3` is silently mapped to `Tombstone` and deserialization of
the record succeeds. -/
theorem unknown_value_type_byte_not_rejected :
    ValueType.fromU8 3 = .tombstone
  ∧ InternalValue.deserialize
        ([0, 1] ++ [65] ++ [0, 0, 0, 0, 0, 0, 0, 0] ++ [3] ++ [0, 0, 0, 0])
      = some (⟨⟨[65], 0, .tombstone⟩, []⟩, []) :=
  ⟨by decide, by decide⟩

/-- C9 (counterexample): the claim says construction panics exactly when
the key is empty or the value is longer than `2^32 − 1` bytes; but a
non-empty key of length `2^16` with an empty value also panics (the key
length exceeds the `u16` bound), refuting the claim as stated. -/
theorem from_components_panics_on_long_key :
    List.replicate 65536 0 ≠ ([] : List Nat)
  ∧ (List.replicate 65536 0 : List Nat).length ≤ 4294967295
  ∧ InternalValue.from_components (List.replicate 65536 0) [] 0 .value
      = none := by
  have hlen : (List.replicate 65536 0 : List Nat).length = 65536 :=
    List.length_replicate _ _
  have hne : List.replicate 65536 0 ≠ ([] : List Nat) := by
    intro h
    rw [h] at hlen
    simp at hlen
  refine ⟨hne, by rw [hlen]; norm_num, ?_⟩
  unfold InternalValue.from_components InternalKey.new
  rw [if_neg hne, if_pos (by rw [hlen]; norm_num)]
  rfl

/-- C9 (amended): `InternalValue::new` panics exactly when the key is
empty or the value exceeds `2^32 − 1` bytes; `from_components`,
`new_tombstone` and `new_weak_tombstone` additionally panic when the key
is longer than `2^16 − 1` bytes; on success the given key and value are
stored unchanged. -/
theorem internalValue_constructors_panic_iff
    (k v : List Nat) (s : Nat) (t : ValueType) :
    (InternalValue.from_components k v s t = none
        ↔ k = [] ∨ 65535 < k.length ∨ 4294967295 < v.length)
  ∧ (∀ iv, InternalValue.from_components k v s t = some iv →
        iv.key.user_key = k ∧ iv.value = v ∧ iv.key.seqno = s
          ∧ iv.key.value_type = t)
  ∧ (∀ key : InternalKey,
      (InternalValue.new key v = none
          ↔ key.user_key = [] ∨ 4294967295 < v.length)
      ∧ ∀ iv, InternalValue.new key v = some iv → iv.key = key ∧ iv.value = v)
  ∧ (InternalValue.new_tombstone k s = none
        ↔ k = [] ∨ 65535 < k.length)
  ∧ (InternalValue.new_weak_tombstone k s = none
        ↔ k = [] ∨ 65535 < k.length) := by
  refine ⟨?_, ?_, ?_, ?_, ?_⟩
  · unfold InternalValue.from_components InternalKey.new InternalValue.new
    by_cases h1 : k = [] <;> by_cases h2 : 65535 < k.length <;>
      by_cases h3 : 4294967295 < v.length <;> simp [h1, h2, h3]
  · intro iv h
    unfold InternalValue.from_components InternalKey.new InternalValue.new at h
    by_cases h1 : k = [] <;> by_cases h2 : 65535 < k.length <;>
      by_cases h3 : 4294967295 < v.length <;>
      simp [h1, h2, h3] at h
    subst h
    exact ⟨rfl, rfl, rfl, rfl⟩
  · intro key
    constructor
    · unfold InternalValue.new
      by_cases h1 : key.user_key = [] <;> by_cases h3 : 4294967295 < v.length <;>
        simp [h1, h3]
    · intro iv h
      unfold InternalValue.new at h
      by_cases h1 : key.user_key = [] <;> by_cases h3 : 4294967295 < v.length <;>
        simp [h1, h3] at h
      subst h
      exact ⟨rfl, rfl⟩
  · unfold InternalValue.new_tombstone InternalKey.new InternalValue.new
    by_cases h1 : k = [] <;> by_cases h2 : 65535 < k.length <;> simp [h1, h2]
  · unfold InternalValue.new_weak_tombstone InternalKey.new InternalValue.new
    by_cases h1 : k = [] <;> by_cases h2 : 65535 < k.length <;> simp [h1, h2]

/-- Witness for `internalValue_constructors_panic_iff` at a concrete
input: `from_components [1] [2] 0 Value` succeeds and stores the key and
value unchanged. -/
theorem internalValue_constructors_panic_iff_witness :
    (⟨⟨[1], 0, .value⟩, [2]⟩ : InternalValue).key.user_key = [1]
  ∧ (⟨⟨[1], 0, .value⟩, [2]⟩ : InternalValue).value = [2]
  ∧ (⟨⟨[1], 0, .value⟩, [2]⟩ : InternalValue).key.seqno = 0
  ∧ (⟨⟨[1], 0, .value⟩, [2]⟩ : InternalValue).key.value_type = .value :=
  (internalValue_constructors_panic_iff [1] [2] 0 .value).2.1
    ⟨⟨[1], 0, .value⟩, [2]⟩ (by decide)

/-- In a min-sorted list of valid ranges in which no adjacent pair
overlaps, the minima grow strictly. -/
theorem chain_minLt_of_disjoint :
    ∀ {rs : List KeyRange}, List.Sorted KeyRange.minLe rs →
      List.Chain' (fun a b => ¬ a.overlaps_with_key_range b) rs →
      (∀ r ∈ rs, KeyRange.valid r) →
      List.Chain' KeyRange.minLt rs := by
  intro rs
  induction rs with
  | nil => intro _ _ _; exact List.chain'_nil
  | cons a t ih =>
    intro hs hc hv
    cases t with
    | nil => simp
    | cons b t2 =>
      rw [List.chain'_cons] at hc ⊢
      refine ⟨?_, ih hs.of_cons hc.2 fun r hr => hv r (List.mem_cons_of_mem _ hr)⟩
      have hab : KeyRange.minLe a b := List.rel_of_sorted_cons hs b (by simp)
      have hbv : KeyRange.valid b := hv b (by simp)
      have hav : KeyRange.valid a := hv a (by simp)
      have hno := hc.1
      unfold KeyRange.overlaps_with_key_range at hno
      unfold KeyRange.valid at hbv hav
      unfold KeyRange.minLe at hab
      unfold KeyRange.minLt
      rcases not_and_or.mp hno with h | h
      · exact absurd (le_trans hab hbv) h
      · exact lt_of_le_of_lt hav (lt_of_not_le h)

/-- A permutation of a disjoint list of valid ranges is again disjoint:
both lists sort to the same strictly-min-sorted list. -/
theorem is_disjoint_true_of_perm {X Y : List KeyRange} (hXY : X.Perm Y)
    (hwf : ∀ r ∈ X, KeyRange.valid r)
    (hX : KeyRange.is_disjoint X = true) : KeyRange.is_disjoint Y = true := by
  unfold KeyRange.is_disjoint at hX ⊢
  rw [decide_eq_true_eq] at hX ⊢
  have hpermS : (X.insertionSort KeyRange.minLe).Perm (Y.insertionSort KeyRange.minLe) :=
    ((List.perm_insertionSort _ X).trans hXY).trans
      (List.perm_insertionSort _ Y).symm
  have hSX : List.Sorted KeyRange.minLe (X.insertionSort KeyRange.minLe) :=
    List.sorted_insertionSort _ _
  have hSY : List.Sorted KeyRange.minLe (Y.insertionSort KeyRange.minLe) :=
    List.sorted_insertionSort _ _
  have hwfS : ∀ r ∈ X.insertionSort KeyRange.minLe, KeyRange.valid r := fun r hr =>
    hwf r ((List.perm_insertionSort _ X).subset hr)
  have hpw : List.Pairwise KeyRange.minLt (X.insertionSort KeyRange.minLe) :=
    List.chain'_iff_pairwise.mp (chain_minLt_of_disjoint hSX hX hwfS)
  have hneX : List.Pairwise (fun a b : KeyRange => a.min ≠ b.min)
      (X.insertionSort KeyRange.minLe) := hpw.imp fun h => ne_of_lt h
  have hneY : List.Pairwise (fun a b : KeyRange => a.min ≠ b.min)
      (Y.insertionSort KeyRange.minLe) :=
    (hpermS.pairwise_iff fun h => h.symm).mp hneX
  have hpwY : List.Pairwise KeyRange.minLt (Y.insertionSort KeyRange.minLe) :=
    (hSY.and hneY).imp fun h => lt_of_le_of_ne h.1 h.2
  have hEq : X.insertionSort KeyRange.minLe = Y.insertionSort KeyRange.minLe :=
    List.eq_of_perm_of_sorted hpermS hpw hpwY
  rw [← hEq]
  exact hX

/-- `KeyRange::is_disjoint` is invariant under permutation of a list of
valid ranges. -/
theorem is_disjoint_perm {X Y : List KeyRange} (hXY : X.Perm Y)
    (hwf : ∀ r ∈ X, KeyRange.valid r) :
    KeyRange.is_disjoint X = KeyRange.is_disjoint Y := by
  cases hX : KeyRange.is_disjoint X with
  | true => exact (is_disjoint_true_of_perm hXY hwf hX).symm
  | false =>
    cases hY : KeyRange.is_disjoint Y with
    | false => rfl
    | true =>
      have hwfY : ∀ r ∈ Y, KeyRange.valid r := fun r hr =>
        hwf r (hXY.mem_iff.mpr hr)
      have hX2 := is_disjoint_true_of_perm hXY.symm hwfY hY
      rw [hX] at hX2
      simp at hX2

/-- Re-establishing the level invariant: `set_disjoint_flag` followed by
`sort` leaves the flag equal to the disjointness of the (re-sorted)
segment list and leaves the list sorted by the matching comparator. -/
theorem level_refresh_spec (xs : List Segment) (b : Bool)
    (hwf : ∀ seg ∈ xs, KeyRange.valid seg.metadata.key_range) :
    ((Level.sort (Level.set_disjoint_flag ⟨xs, b⟩)).is_disjoint
        = KeyRange.is_disjoint
            ((Level.sort (Level.set_disjoint_flag ⟨xs, b⟩)).segments.map
              fun x => x.metadata.key_range))
  ∧ ((Level.sort (Level.set_disjoint_flag ⟨xs, b⟩)).is_disjoint = true →
      List.Sorted Segment.minLe
        (Level.sort (Level.set_disjoint_flag ⟨xs, b⟩)).segments)
  ∧ ((Level.sort (Level.set_disjoint_flag ⟨xs, b⟩)).is_disjoint = false →
      List.Sorted Segment.seqnoGe
        (Level.sort (Level.set_disjoint_flag ⟨xs, b⟩)).segments) := by
  have hwfm : ∀ r ∈ xs.map (fun x => x.metadata.key_range), KeyRange.valid r := by
    intro r hr
    rcases List.mem_map.mp hr with ⟨seg, hseg, he⟩
    exact he ▸ hwf seg hseg
  unfold Level.sort Level.set_disjoint_flag
  cases hD : KeyRange.is_disjoint (xs.map fun x => x.metadata.key_range) with
  | true =>
    simp only [hD, if_true]
    refine ⟨?_, fun _ => List.sorted_insertionSort _ _, fun h => by simp at h⟩
    have hperm : ((xs.insertionSort Segment.minLe).map
        fun x => x.metadata.key_range).Perm (xs.map fun x => x.metadata.key_range) :=
      (List.perm_insertionSort _ xs).map _
    exact (is_disjoint_true_of_perm hperm.symm hwfm hD).symm
  | false =>
    simp only [hD, if_false, Bool.false_eq_true]
    refine ⟨?_, fun h => by simp at h, fun _ => List.sorted_insertionSort _ _⟩
    have hperm : (xs.map fun x => x.metadata.key_range).Perm
        ((xs.insertionSort Segment.seqnoGe).map fun x => x.metadata.key_range) :=
      ((List.perm_insertionSort _ xs).map _).symm
    rw [← is_disjoint_perm hperm hwfm, hD]

/-- C6: after every `Level::insert` and `Level::remove`, the cached
`is_disjoint` flag equals `KeyRange::is_disjoint` of the key ranges of
the segments currently in the level, and the segment list is sorted by
`key_range.min` ascending when the flag is true, by `seqnos.max`
descending when it is false. -/
theorem level_insert_remove_invariants (l : Level) (s : Segment) (i : Nat)
    (hwf : ∀ seg ∈ l.segments, KeyRange.valid seg.metadata.key_range)
    (hs : KeyRange.valid s.metadata.key_range) :
    ((l.insert s).is_disjoint
        = KeyRange.is_disjoint
            ((l.insert s).segments.map fun x => x.metadata.key_range))
  ∧ ((l.insert s).is_disjoint = true →
      List.Sorted Segment.minLe (l.insert s).segments)
  ∧ ((l.insert s).is_disjoint = false →
      List.Sorted Segment.seqnoGe (l.insert s).segments)
  ∧ ((l.remove i).is_disjoint
        = KeyRange.is_disjoint
            ((l.remove i).segments.map fun x => x.metadata.key_range))
  ∧ ((l.remove i).is_disjoint = true →
      List.Sorted Segment.minLe (l.remove i).segments)
  ∧ ((l.remove i).is_disjoint = false →
      List.Sorted Segment.seqnoGe (l.remove i).segments) := by
  have hwf1 : ∀ seg ∈ l.segments ++ [s], KeyRange.valid seg.metadata.key_range := by
    intro seg hseg
    rcases List.mem_append.mp hseg with h | h
    · exact hwf seg h
    · rw [List.mem_singleton.mp h]; exact hs
  have hwf2 : ∀ seg ∈ l.segments.filter (fun x => i ≠ x.metadata.id),
      KeyRange.valid seg.metadata.key_range := fun seg hseg =>
    hwf seg (List.mem_of_mem_filter hseg)
  have h1 := level_refresh_spec (l.segments ++ [s]) l.is_disjoint hwf1
  have h2 := level_refresh_spec (l.segments.filter fun x => i ≠ x.metadata.id)
    l.is_disjoint hwf2
  exact ⟨h1.1, h1.2.1, h1.2.2, h2.1, h2.2.1, h2.2.2⟩

/-- Witness for `level_insert_remove_invariants`: inserting a segment
with range `[[99], [107]]` into the empty level leaves the flag equal to
the recomputed disjointness. -/
theorem level_insert_remove_invariants_witness :
    ((Level.mk [] true).insert (fixtureSegment 1 ⟨[99], [107]⟩)).is_disjoint
      = KeyRange.is_disjoint
          (((Level.mk [] true).insert (fixtureSegment 1 ⟨[99], [107]⟩)).segments.map
            fun x => x.metadata.key_range) :=
  (level_insert_remove_invariants ⟨[], true⟩ (fixtureSegment 1 ⟨[99], [107]⟩) 0
    (by simp) (by decide)).1

/-- The segment list after `Level::remove` is a permutation of the
filtered input list. -/
theorem level_remove_segments_perm (l : Level) (i : Nat) :
    ((l.remove i).segments).Perm
      (l.segments.filter fun x => i ≠ x.metadata.id) := by
  unfold Level.remove Level.set_disjoint_flag Level.sort
  cases hD : KeyRange.is_disjoint
      ((l.segments.filter fun x => i ≠ x.metadata.id).map
        fun x => x.metadata.key_range) with
  | true => simpa using List.perm_insertionSort Segment.minLe _
  | false => simpa [hD] using List.perm_insertionSort Segment.seqnoGe _

/-- A level that already satisfies the flag/sort invariant and holds no
segment with the given id is left unchanged by `Level::remove`. -/
theorem level_remove_fixed (ll : Level) (i : Nat)
    (hflag : ll.is_disjoint
        = KeyRange.is_disjoint (ll.segments.map fun x => x.metadata.key_range))
    (hsort1 : ll.is_disjoint = true → List.Sorted Segment.minLe ll.segments)
    (hsort2 : ll.is_disjoint = false → List.Sorted Segment.seqnoGe ll.segments)
    (hid : ∀ seg ∈ ll.segments, i ≠ seg.metadata.id) :
    Level.remove ll i = ll := by
  obtain ⟨xs, b⟩ := ll
  simp only at hflag hsort1 hsort2 hid
  have hF : xs.filter (fun x => i ≠ x.metadata.id) = xs :=
    List.filter_eq_self.mpr fun x hx => by simpa using hid x hx
  unfold Level.remove Level.set_disjoint_flag Level.sort
  simp only [hF]
  rw [← hflag]
  cases b with
  | true =>
    simp only [if_true]
    rw [(hsort1 rfl).insertionSort_eq]
  | false =>
    simp only [Bool.false_eq_true, if_false]
    rw [(hsort2 rfl).insertionSort_eq]

/-- C10: `Level::remove` is idempotent (the second removal leaves the
segment list, its order and the flag unchanged), and removing an id held
by no segment keeps the same set of segments. -/
theorem level_remove_idempotent (l : Level) (i : Nat)
    (hwf : ∀ seg ∈ l.segments, KeyRange.valid seg.metadata.key_range) :
    (l.remove i).remove i = l.remove i
  ∧ ((∀ seg ∈ l.segments, i ≠ seg.metadata.id) →
      ((l.remove i).segments).Perm l.segments) := by
  have hwfF : ∀ seg ∈ l.segments.filter (fun x => i ≠ x.metadata.id),
      KeyRange.valid seg.metadata.key_range := fun seg h =>
    hwf seg (List.mem_of_mem_filter h)
  have href := level_refresh_spec (l.segments.filter fun x => i ≠ x.metadata.id)
    l.is_disjoint hwfF
  constructor
  · refine level_remove_fixed (l.remove i) i href.1 href.2.1 href.2.2 ?_
    intro seg hseg
    have hmem : seg ∈ l.segments.filter (fun x => i ≠ x.metadata.id) :=
      (level_remove_segments_perm l i).subset hseg
    simpa using List.of_mem_filter hmem
  · intro hid
    have hF : l.segments.filter (fun x => i ≠ x.metadata.id) = l.segments :=
      List.filter_eq_self.mpr fun x hx => by simpa using hid x hx
    exact hF ▸ level_remove_segments_perm l i

/-- Witness for `level_remove_idempotent`: removing id 5 twice from a
one-segment level equals removing it once. -/
theorem level_remove_idempotent_witness :
    ((Level.mk [fixtureSegment 1 ⟨[99], [107]⟩] true).remove 5).remove 5
      = (Level.mk [fixtureSegment 1 ⟨[99], [107]⟩] true).remove 5 :=
  (level_remove_idempotent ⟨[fixtureSegment 1 ⟨[99], [107]⟩], true⟩ 5
    (by intro seg hseg; rw [List.mem_singleton.mp hseg]; decide)).1

/-- C7: `overlapping_segments` yields exactly the segments whose key
range satisfies the overlap inequalities, in list order; on a level
holding ranges `[[99],[107]]` ("c".."k") and `[[108],[122]]`
("l".."z"), querying `[[97],[98]]` ("a".."b") yields no segment,
`[[100],[107]]` ("d".."k") yields only segment 1, and `[[102],[120]]`
("f".."x") yields both. -/
theorem level_overlapping_segments_spec :
    (∀ (l : Level) (r : KeyRange),
        l.overlapping_segments r = l.segments.filter fun x =>
          decide (x.metadata.key_range.min ≤ r.max
            ∧ r.min ≤ x.metadata.key_range.max))
  ∧ ((Level.mk [fixtureSegment 1 ⟨[99], [107]⟩, fixtureSegment 2 ⟨[108], [122]⟩]
        true).overlapping_segments ⟨[97], [98]⟩).map (fun x => x.metadata.id) = []
  ∧ ((Level.mk [fixtureSegment 1 ⟨[99], [107]⟩, fixtureSegment 2 ⟨[108], [122]⟩]
        true).overlapping_segments ⟨[100], [107]⟩).map (fun x => x.metadata.id) = [1]
  ∧ ((Level.mk [fixtureSegment 1 ⟨[99], [107]⟩, fixtureSegment 2 ⟨[108], [122]⟩]
        true).overlapping_segments ⟨[102], [120]⟩).map (fun x => x.metadata.id)
      = [1, 2] :=
  ⟨fun _ _ => rfl, by decide, by decide, by decide⟩

/-- `findIdx` returns the length when the predicate never holds. -/
theorem findIdx_eq_length_of_all_false {α : Type} {p : α → Bool} :
    ∀ {l : List α}, (∀ x ∈ l, p x = false) → l.findIdx p = l.length := by
  intro l
  induction l with
  | nil => intro _; rfl
  | cons a t ih =>
    intro h
    rw [List.findIdx_cons]
    have ha := h a (by simp)
    simp [ha, ih fun x hx => h x (List.mem_cons_of_mem _ hx)]

/-- `findIdx` returns the first index at which the predicate holds. -/
theorem findIdx_eq_of_first {α : Type} {p : α → Bool} :
    ∀ {l : List α} {i : Nat} (hi : i < l.length),
      p (l.get ⟨i, hi⟩) = true →
      (∀ j (hj : j < l.length), j < i → p (l.get ⟨j, hj⟩) = false) →
      l.findIdx p = i := by
  intro l
  induction l with
  | nil => intro i hi _ _; exact absurd hi (Nat.not_lt_zero _)
  | cons a t ih =>
    intro i hi hp hprev
    cases i with
    | zero =>
      rw [List.findIdx_cons]
      have hp0 : p a = true := by simpa using hp
      simp [hp0]
    | succ n =>
      have ha : p a = false := hprev 0 (Nat.succ_pos _) (Nat.succ_pos _)
      rw [List.findIdx_cons]
      simp only [ha, cond_false]
      have hn : n < t.length := Nat.lt_of_succ_lt_succ hi
      have hget : p (t.get ⟨n, hn⟩) = true := by simpa using hp
      have hprev2 : ∀ j (hj : j < t.length), j < n → p (t.get ⟨j, hj⟩) = false := by
        intro j hj hjn
        have h2 := hprev (j + 1) (Nat.succ_lt_succ hj) (Nat.succ_lt_succ hjn)
        simpa using h2
      rw [ih hn hget hprev2]

/-- C8: `get_segment_containing_key` panics exactly when the level is
not disjoint; on a disjoint level it returns the segment at index
`partition_point(key_range.max < k)`; on a disjoint, min-sorted level
with pairwise non-overlapping ranges that segment is the only one whose
range can contain `k`; and it returns `none` when every segment's
maximum key is below `k`. -/
theorem level_get_segment_containing_key_spec (l : Level) (k : UserKey) :
    (l.is_disjoint = false → l.get_segment_containing_key k = .error ())
  ∧ (l.is_disjoint = true →
      l.get_segment_containing_key k
        = .ok l.segments[partitionPoint
            (fun x => decide (x.metadata.key_range.max < k)) l.segments]?)
  ∧ (l.is_disjoint = true →
      List.Sorted Segment.minLe l.segments →
      List.Pairwise (fun a b =>
          ¬ a.metadata.key_range.overlaps_with_key_range b.metadata.key_range)
        l.segments →
      ∀ seg ∈ l.segments, seg.metadata.key_range.contains_key k →
        l.get_segment_containing_key k = .ok (some seg))
  ∧ (l.is_disjoint = true →
      (∀ seg ∈ l.segments, seg.metadata.key_range.max < k) →
      l.get_segment_containing_key k = .ok none) := by
  refine ⟨?_, ?_, ?_, ?_⟩
  · intro h
    unfold Level.get_segment_containing_key
    simp [h]
  · intro h
    unfold Level.get_segment_containing_key
    simp [h]
  · intro hflag hsort hdisj seg hseg hcont
    obtain ⟨hc1, hc2⟩ := hcont
    unfold Level.get_segment_containing_key
    simp only [hflag, if_true]
    rcases List.mem_iff_get.mp hseg with ⟨⟨j, hj⟩, he⟩
    have hfind : l.segments.findIdx
        (fun x => !(decide (x.metadata.key_range.max < k))) = j := by
      apply findIdx_eq_of_first hj
      · rw [he]
        simp only [Bool.not_eq_eq_eq_not, Bool.not_true, decide_eq_false_iff_not]
        exact not_lt.mpr hc2
      · intro j2 hj2 hj2lt
        have hlt2 : (l.segments.get ⟨j2, hj2⟩).metadata.key_range.max < k := by
          have hpair := List.pairwise_iff_get.mp hdisj ⟨j2, hj2⟩ ⟨j, hj⟩ hj2lt
          have hle := List.pairwise_iff_get.mp hsort ⟨j2, hj2⟩ ⟨j, hj⟩ hj2lt
          rw [he] at hpair hle
          unfold Segment.minLe at hle
          unfold KeyRange.overlaps_with_key_range at hpair
          rcases not_and_or.mp hpair with h | h
          · exact absurd (le_trans hle (le_trans hc1 hc2)) h
          · exact lt_of_lt_of_le (lt_of_not_le h) hc1
        simp only [List.get_eq_getElem] at hlt2
        simp [hlt2]
    unfold partitionPoint
    rw [hfind, List.getElem?_eq_getElem hj]
    have hgj : l.segments[j] = seg :=
      (List.get_eq_getElem l.segments ⟨j, hj⟩).symm.trans he
    rw [hgj]
  · intro hflag hall
    unfold Level.get_segment_containing_key partitionPoint
    simp only [hflag, if_true]
    have hlen : l.segments.findIdx
        (fun x => !(decide (x.metadata.key_range.max < k))) = l.segments.length := by
      apply findIdx_eq_length_of_all_false
      intro x hx
      simp [hall x hx]
    rw [hlen, List.getElem?_eq_none (le_refl _)]

/-- Witness for `level_get_segment_containing_key_spec`: on the disjoint
two-segment fixture level, the key `[100]` is contained in segment 1's
range, and the lookup returns exactly that segment. -/
theorem level_get_segment_containing_key_witness :
    (Level.mk [fixtureSegment 1 ⟨[99], [107]⟩, fixtureSegment 2 ⟨[108], [122]⟩]
        true).get_segment_containing_key [100]
      = .ok (some (fixtureSegment 1 ⟨[99], [107]⟩)) :=
  (level_get_segment_containing_key_spec
      ⟨[fixtureSegment 1 ⟨[99], [107]⟩, fixtureSegment 2 ⟨[108], [122]⟩], true⟩
      [100]).2.2.1 rfl
    (by constructor <;> simp <;> decide)
    (by constructor <;> simp <;> decide)
    (fixtureSegment 1 ⟨[99], [107]⟩) (List.mem_cons_self _ _) (by decide)

/-- The internal-key order is ascending on user keys. -/
theorem ikLt_userKey_le {a b : InternalValue} (h : ikLt a b) :
    a.key.user_key ≤ b.key.user_key := by
  rcases h with h | ⟨h, _⟩
  · exact le_of_lt h
  · exact le_of_eq h

/-- At equal user keys the internal-key order is descending on seqnos. -/
theorem ikLt_seqno_of_eq {a b : InternalValue} (h : ikLt a b)
    (he : a.key.user_key = b.key.user_key) : b.key.seqno < a.key.seqno := by
  rcases h with h | ⟨_, h⟩
  · rw [he] at h; exact absurd h (lt_irrefl _)
  · exact h

/-- Every item of a strictly sorted block has user key at most the
block's last user key. -/
theorem userKey_le_lastUserKey {l : List InternalValue}
    (hp : List.Pairwise ikLt l) :
    ∀ x ∈ l, x.key.user_key ≤ lastUserKey l := by
  rcases List.eq_nil_or_concat l with rfl | ⟨l2, a, rfl⟩
  · intro x hx; cases hx
  · rw [List.concat_eq_append] at hp ⊢
    intro x hx
    have hlast : lastUserKey (l2 ++ [a]) = a.key.user_key := by
      unfold lastUserKey
      rw [List.getLast?_concat]
      rfl
    rw [hlast]
    rcases List.mem_append.mp hx with h | h
    · exact ikLt_userKey_le
        ((List.pairwise_append.mp hp).2.2 x h a (List.mem_singleton_self a))
    · rw [List.mem_singleton.mp h]

/-- An element on which the predicate fails survives `dropWhile`. -/
theorem mem_dropWhile_of_not {α : Type} {p : α → Bool} :
    ∀ {l : List α} {x : α}, x ∈ l → p x = false → x ∈ l.dropWhile p := by
  intro l
  induction l with
  | nil => intro x h _; cases h
  | cons a t ih =>
    intro x hx hpx
    rw [List.dropWhile_cons]
    by_cases hpa : p a = true
    · rw [if_pos hpa]
      rcases List.mem_cons.mp hx with rfl | hxt
      · rw [hpx] at hpa; cases hpa
      · exact ih hxt hpx
    · rw [if_neg hpa]
      exact hx

/-- After dropping the items below the lower bound of a sorted list,
every remaining item is at or above the bound. -/
theorem dropWhile_userKey_ge {key : UserKey} :
    ∀ {l : List InternalValue}, List.Pairwise ikLt l →
      ∀ x ∈ l.dropWhile (fun it => decide (it.key.user_key < key)),
        key ≤ x.key.user_key := by
  intro l
  induction l with
  | nil => intro _ x hx; simp at hx
  | cons a t ih =>
    intro hp x hx
    rw [List.dropWhile_cons] at hx
    by_cases ha : a.key.user_key < key
    · rw [if_pos (by simpa using decide_eq_true ha)] at hx
      exact ih hp.of_cons x hx
    · rw [if_neg (by simp [ha])] at hx
      have hak : key ≤ a.key.user_key := not_lt.mp ha
      rcases List.mem_cons.mp hx with rfl | hxt
      · exact hak
      · exact le_trans hak
          (ikLt_userKey_le ((List.pairwise_cons.mp hp).1 x hxt))

/-- On a sorted list, the reader loop without a snapshot finds exactly
the first item carrying the key. -/
theorem getLoop_none_eq_find {key : UserKey} :
    ∀ {l : List InternalValue}, List.Pairwise ikLt l →
      getLoop key none (l.dropWhile fun it => decide (it.key.user_key < key))
        = l.find? fun it => decide (it.key.user_key = key) := by
  intro l
  induction l with
  | nil => intro _; rfl
  | cons a t ih =>
    intro hp
    rw [List.dropWhile_cons, List.find?_cons]
    by_cases ha : a.key.user_key < key
    · have hne : a.key.user_key ≠ key := ne_of_lt ha
      simp only [ha, decide_True, if_true, hne, decide_False]
      exact ih hp.of_cons
    · by_cases he : a.key.user_key = key
      · simp [ha, he, getLoop]
      · have hgt : key < a.key.user_key :=
          lt_of_le_of_ne (not_lt.mp ha) (Ne.symm he)
        have hfind : t.find? (fun it => decide (it.key.user_key = key))
            = none := by
          apply List.find?_eq_none.mpr
          intro x hx
          simp only [decide_eq_true_eq]
          have hxgt : key < x.key.user_key :=
            lt_of_lt_of_le hgt
              (ikLt_userKey_le ((List.pairwise_cons.mp hp).1 x hx))
          exact (ne_of_lt hxgt).symm
        simp [ha, he, getLoop, hfind]

/-- When the block index finds a block (the lowest one whose last key is
at or above the key), scanning just that block is the same as scanning
the whole sorted item sequence. -/
theorem find_block_eq_find {key : UserKey} :
    ∀ {blocks : List (List InternalValue)} {b : List InternalValue},
      (∀ blk ∈ blocks, blk ≠ []) →
      List.Pairwise ikLt blocks.flatten →
      blocks.find? (fun blk => decide (key ≤ lastUserKey blk)) = some b →
      b.find? (fun it => decide (it.key.user_key = key))
        = blocks.flatten.find? fun it => decide (it.key.user_key = key) := by
  intro blocks
  induction blocks with
  | nil => intro b _ _ h; cases h
  | cons blk rest ih =>
    intro b hne hp hfind
    rw [List.flatten_cons]
    rw [List.find?_cons] at hfind
    have hpb : List.Pairwise ikLt blk := (List.pairwise_append.mp hp).1
    by_cases hk : key ≤ lastUserKey blk
    · simp only [hk, decide_True] at hfind
      have hbb : blk = b := Option.some.inj hfind
      subst hbb
      rw [List.find?_append]
      cases hfb : blk.find? (fun it => decide (it.key.user_key = key)) with
      | some v => rfl
      | none =>
        have hnil : blk ≠ [] := hne blk (List.mem_cons_self _ _)
        have hlastmem : blk.getLast hnil ∈ blk := List.getLast_mem hnil
        have hlasteq : lastUserKey blk = (blk.getLast hnil).key.user_key := by
          unfold lastUserKey
          rw [List.getLast?_eq_getLast blk hnil]
          rfl
        have hlastne : (blk.getLast hnil).key.user_key ≠ key := by
          have := List.find?_eq_none.mp hfb _ hlastmem
          simpa using this
        have hklt : key < (blk.getLast hnil).key.user_key := by
          rw [hlasteq] at hk
          exact lt_of_le_of_ne hk (Ne.symm hlastne)
        symm
        simp only [Option.none_or]
        apply List.find?_eq_none.mpr
        intro y hy
        simp only [decide_eq_true_eq]
        have hyge : (blk.getLast hnil).key.user_key ≤ y.key.user_key :=
          ikLt_userKey_le
            ((List.pairwise_append.mp hp).2.2 _ hlastmem y hy)
        exact (ne_of_lt (lt_of_lt_of_le hklt hyge)).symm
    · simp only [hk, decide_False] at hfind
      have hlt : lastUserKey blk < key := not_le.mp hk
      have hfb : blk.find? (fun it => decide (it.key.user_key = key)) = none := by
        apply List.find?_eq_none.mpr
        intro x hx
        simp only [decide_eq_true_eq]
        have := lt_of_le_of_lt (userKey_le_lastUserKey hpb x hx) hlt
        exact ne_of_lt this
      rw [List.find?_append, hfb]
      simp only [Option.none_or]
      exact ih (fun x hx => hne x (List.mem_cons_of_mem _ hx))
        (List.pairwise_append.mp hp).2.1 hfind

/-- On a strictly sorted item list, `find?` on the user key returns the
newest (highest-seqno) version of that key. -/
theorem find_first_newest {key : UserKey} :
    ∀ {l : List InternalValue}, List.Pairwise ikLt l →
      ((∃ it ∈ l, it.key.user_key = key) →
        ∃ v, l.find? (fun it => decide (it.key.user_key = key)) = some v ∧
          v ∈ l ∧ v.key.user_key = key ∧
          ∀ it ∈ l, it.key.user_key = key → it.key.seqno ≤ v.key.seqno)
    ∧ ((∀ it ∈ l, it.key.user_key ≠ key) →
        l.find? (fun it => decide (it.key.user_key = key)) = none) := by
  intro l
  induction l with
  | nil =>
    intro _
    refine ⟨?_, fun _ => rfl⟩
    rintro ⟨it, hit, -⟩
    cases hit
  | cons a t ih =>
    intro hp
    have iht := ih hp.of_cons
    constructor
    · intro hex
      rw [List.find?_cons]
      by_cases he : a.key.user_key = key
      · simp only [he, decide_True]
        refine ⟨a, rfl, List.mem_cons_self _ _, he, ?_⟩
        intro it hit hitk
        rcases List.mem_cons.mp hit with rfl | hitt
        · exact le_refl _
        · exact le_of_lt (ikLt_seqno_of_eq
            ((List.pairwise_cons.mp hp).1 it hitt) (he.trans hitk.symm))
      · simp only [he, decide_False]
        have hext : ∃ it ∈ t, it.key.user_key = key := by
          rcases hex with ⟨it, hit, hitk⟩
          rcases List.mem_cons.mp hit with rfl | hitt
          · exact absurd hitk he
          · exact ⟨it, hitt, hitk⟩
        rcases iht.1 hext with ⟨v, h1, h2, h3, h4⟩
        refine ⟨v, h1, List.mem_cons_of_mem _ h2, h3, ?_⟩
        intro it hit hitk
        rcases List.mem_cons.mp hit with rfl | hitt
        · exact absurd hitk he
        · exact h4 it hitt hitk
    · intro hall
      rw [List.find?_cons]
      have he : a.key.user_key ≠ key := hall a (List.mem_cons_self _ _)
      simp only [he, decide_False]
      exact iht.2 fun it hit => hall it (List.mem_cons_of_mem _ hit)

/-- The reader loop under a snapshot, on a sorted list whose items are
all at or above the key: it returns the newest version of the key
strictly older than the snapshot, or `none` when there is none, and
anything it returns carries the key and is older than the snapshot. -/
theorem getLoop_snapshot_spec {key : UserKey} {snap : Nat} :
    ∀ {l : List InternalValue}, List.Pairwise ikLt l →
      (∀ it ∈ l, key ≤ it.key.user_key) →
      ((∃ it ∈ l, it.key.user_key = key ∧ it.key.seqno < snap) →
        ∃ v, getLoop key (some snap) l = some v ∧ v ∈ l ∧
          v.key.user_key = key ∧ v.key.seqno < snap ∧
          ∀ it ∈ l, it.key.user_key = key → it.key.seqno < snap →
            it.key.seqno ≤ v.key.seqno)
    ∧ ((∀ it ∈ l, it.key.user_key = key → ¬ it.key.seqno < snap) →
        getLoop key (some snap) l = none)
    ∧ (∀ v, getLoop key (some snap) l = some v →
        v ∈ l ∧ v.key.user_key = key ∧ v.key.seqno < snap) := by
  intro l
  induction l with
  | nil =>
    intro _ _
    refine ⟨?_, fun _ => rfl, fun v hv => by cases hv⟩
    rintro ⟨it, hit, -⟩
    cases hit
  | cons a t ih =>
    intro hp hge
    have iht := ih hp.of_cons fun it hit => hge it (List.mem_cons_of_mem _ hit)
    by_cases hea : a.key.user_key = key
    · by_cases hsa : a.key.seqno < snap
      · have hrun : getLoop key (some snap) (a :: t) = some a := by
          simp [getLoop, hea, hsa]
        refine ⟨?_, ?_, ?_⟩
        · intro _
          refine ⟨a, hrun, List.mem_cons_self _ _, hea, hsa, ?_⟩
          intro it hit hitk _
          rcases List.mem_cons.mp hit with rfl | hitt
          · exact le_refl _
          · exact le_of_lt (ikLt_seqno_of_eq
              ((List.pairwise_cons.mp hp).1 it hitt) (hea.trans hitk.symm))
        · intro hall
          exact absurd hsa (hall a (List.mem_cons_self _ _) hea)
        · intro v hv
          rw [hrun] at hv
          rw [← Option.some.inj hv]
          exact ⟨List.mem_cons_self _ _, hea, hsa⟩
      · have hrun : getLoop key (some snap) (a :: t)
            = getLoop key (some snap) t := by
          simp [getLoop, hea, hsa]
        rw [hrun]
        refine ⟨?_, ?_, ?_⟩
        · intro hex
          have hext : ∃ it ∈ t, it.key.user_key = key ∧ it.key.seqno < snap := by
            rcases hex with ⟨it, hit, hitk, hits⟩
            rcases List.mem_cons.mp hit with rfl | hitt
            · exact absurd hits hsa
            · exact ⟨it, hitt, hitk, hits⟩
          rcases iht.1 hext with ⟨v, h1, h2, h3, h4, h5⟩
          refine ⟨v, h1, List.mem_cons_of_mem _ h2, h3, h4, ?_⟩
          intro it hit hitk hits
          rcases List.mem_cons.mp hit with rfl | hitt
          · exact absurd hits hsa
          · exact h5 it hitt hitk hits
        · intro hall
          exact iht.2.1 fun it hit hitk =>
            hall it (List.mem_cons_of_mem _ hit) hitk
        · intro v hv
          rcases iht.2.2 v hv with ⟨h1, h2, h3⟩
          exact ⟨List.mem_cons_of_mem _ h1, h2, h3⟩
    · have hrun : getLoop key (some snap) (a :: t) = none := by
        simp [getLoop, hea]
      have hnomatch : ∀ it ∈ a :: t, ¬ it.key.user_key = key := by
        intro it hit
        rcases List.mem_cons.mp hit with rfl | hitt
        · exact hea
        · have hgt : key < a.key.user_key :=
            lt_of_le_of_ne (hge a (List.mem_cons_self _ _)) (Ne.symm hea)
          have : key < it.key.user_key :=
            lt_of_lt_of_le hgt
              (ikLt_userKey_le ((List.pairwise_cons.mp hp).1 it hitt))
          exact (ne_of_lt this).symm
      refine ⟨?_, fun _ => hrun, ?_⟩
      · rintro ⟨it, hit, hitk, -⟩
        exact absurd hitk (hnomatch it hit)
      · intro v hv
        rw [hrun] at hv
        cases hv

/-- On a well-formed segment, the no-snapshot `get` (early checks plus
either the block-index fast path or the reader path) computes exactly
the first item of the segment carrying the key. -/
theorem segment_get_none_eq_find (s : Segment) (key : UserKey)
    (hwf : SegmentWF s) :
    s.get key none = s.items.find? fun it => decide (it.key.user_key = key) := by
  by_cases hcont : s.metadata.key_range.contains_key key
  · by_cases hbloom : s.bloom_filter key = false
    · have hfe : s.items.find? (fun it => decide (it.key.user_key = key))
          = none := by
        apply List.find?_eq_none.mpr
        intro x hx
        simp only [decide_eq_true_eq]
        intro hxk
        exact absurd (hxk ▸ hwf.bloom_ok x hx) (by simp [hbloom])
      unfold Segment.get
      simp [hcont, hbloom, hfe]
    · have hbt : s.bloom_filter key = true := by
        cases hb : s.bloom_filter key
        · exact absurd hb hbloom
        · rfl
      cases hblk : s.lowest_data_block key with
      | some block =>
        have hmain := find_block_eq_find hwf.blocks_nonempty
          hwf.items_sorted hblk
        unfold Segment.get
        simp [hcont, hbt, hblk]
        exact hmain
      | none =>
        have hmain := @getLoop_none_eq_find key _ hwf.items_sorted
        unfold Segment.get
        simp [hcont, hbt, hblk]
        exact hmain
  · have hfe : s.items.find? (fun it => decide (it.key.user_key = key))
        = none := by
      apply List.find?_eq_none.mpr
      intro x hx
      simp only [decide_eq_true_eq]
      intro hxk
      exact hcont (hxk ▸ hwf.key_range_ok x hx)
    unfold Segment.get
    simp [hcont, hfe]

/-- C3: on a well-formed segment, `get` without a snapshot returns the
stored record with the given user key of highest seqno when one exists
— the value type, tombstone or not, is not inspected, so tombstones are
returned as values — and `none` when the key is not stored. -/
theorem segment_get_no_snapshot (s : Segment) (key : UserKey)
    (hwf : SegmentWF s) :
    ((∃ it ∈ s.items, it.key.user_key = key) →
      ∃ v, s.get key none = some v ∧ v ∈ s.items ∧ v.key.user_key = key ∧
        ∀ it ∈ s.items, it.key.user_key = key → it.key.seqno ≤ v.key.seqno)
  ∧ ((∀ it ∈ s.items, it.key.user_key ≠ key) → s.get key none = none) := by
  have h := segment_get_none_eq_find s key hwf
  constructor
  · intro hex
    rcases (find_first_newest hwf.items_sorted).1 hex with ⟨v, h1, h2, h3, h4⟩
    exact ⟨v, h.trans h1, h2, h3, h4⟩
  · intro hall
    rw [h]
    exact (find_first_newest hwf.items_sorted).2 hall

/-- Witness for `segment_get_no_snapshot`: on the concrete two-block
segment, `get [1] none` returns the seqno-6 version of key `[1]`. -/
theorem segment_get_no_snapshot_witness :
    ∃ v, testSegment.get [1] none = some v ∧ v ∈ testSegment.items ∧
      v.key.user_key = [1] ∧
      ∀ it ∈ testSegment.items, it.key.user_key = [1] →
        it.key.seqno ≤ v.key.seqno :=
  (segment_get_no_snapshot testSegment [1]
      ⟨by decide, by decide, by decide, by decide, by decide⟩).1
    ⟨⟨⟨[1], 6, .value⟩, [9]⟩, by decide, rfl⟩

/-- C4: on a well-formed segment with minimum seqno below the snapshot,
`get key (some snap)` returns the stored record with the given user key
of greatest seqno strictly below the snapshot when one exists, `none`
when none exists, and every returned record carries the key and a seqno
below the snapshot. -/
theorem segment_get_snapshot (s : Segment) (key : UserKey) (snap : Nat)
    (hwf : SegmentWF s) (hsnap : s.metadata.seqnos.1 < snap) :
    ((∃ it ∈ s.items, it.key.user_key = key ∧ it.key.seqno < snap) →
      ∃ v, s.get key (some snap) = some v ∧ v ∈ s.items ∧
        v.key.user_key = key ∧ v.key.seqno < snap ∧
        ∀ it ∈ s.items, it.key.user_key = key → it.key.seqno < snap →
          it.key.seqno ≤ v.key.seqno)
  ∧ ((∀ it ∈ s.items, it.key.user_key = key → ¬ it.key.seqno < snap) →
      s.get key (some snap) = none)
  ∧ (∀ v, s.get key (some snap) = some v →
      v.key.user_key = key ∧ v.key.seqno < snap) := by
  have h1 : ¬ (snap ≤ s.metadata.seqnos.1) := not_le.mpr hsnap
  by_cases hcont : s.metadata.key_range.contains_key key
  · by_cases hbloom : s.bloom_filter key = false
    · have hnone : s.get key (some snap) = none := by
        unfold Segment.get
        simp [h1, hcont, hbloom]
      refine ⟨?_, fun _ => hnone, ?_⟩
      · rintro ⟨it, hit, hitk, -⟩
        exact absurd (hitk ▸ hwf.bloom_ok it hit) (by simp [hbloom])
      · intro v hv
        rw [hnone] at hv
        cases hv
    · have hbt : s.bloom_filter key = true := by
        cases hb : s.bloom_filter key
        · exact absurd hb hbloom
        · rfl
      have hrun : s.get key (some snap)
          = getLoop key (some snap) (s.readerFrom key) := by
        unfold Segment.get
        simp [h1, hcont, hbt]
      have hpD : List.Pairwise ikLt
          (s.items.dropWhile fun it => decide (it.key.user_key < key)) :=
        List.Pairwise.sublist (List.dropWhile_sublist _) hwf.items_sorted
      have hspec := @getLoop_snapshot_spec key snap _ hpD
        (dropWhile_userKey_ge hwf.items_sorted)
      refine ⟨?_, ?_, ?_⟩
      · rintro ⟨it, hit, hitk, hits⟩
        have hitD := mem_dropWhile_of_not
          (p := fun it => decide (it.key.user_key < key)) hit (by simp [hitk])
        rcases hspec.1 ⟨it, hitD, hitk, hits⟩ with ⟨v, hv1, hv2, hv3, hv4, hv5⟩
        refine ⟨v, hrun.trans hv1, (List.dropWhile_sublist _).subset hv2,
          hv3, hv4, ?_⟩
        intro it2 hit2 hit2k hit2s
        exact hv5 it2 (mem_dropWhile_of_not hit2 (by simp [hit2k])) hit2k hit2s
      · intro hall
        rw [hrun]
        exact hspec.2.1 fun it hit hitk =>
          hall it ((List.dropWhile_sublist _).subset hit) hitk
      · intro v hv
        rw [hrun] at hv
        rcases hspec.2.2 v hv with ⟨-, h2, h3⟩
        exact ⟨h2, h3⟩
  · have hnone : s.get key (some snap) = none := by
      unfold Segment.get
      simp [h1, hcont]
    refine ⟨?_, fun _ => hnone, ?_⟩
    · rintro ⟨it, hit, hitk, -⟩
      exact absurd (hitk ▸ hwf.key_range_ok it hit) hcont
    · intro v hv
      rw [hnone] at hv
      cases hv

/-- Witness for `segment_get_snapshot`: at snapshot seqno 5, `get [1]`
on the concrete segment returns the seqno-4 tombstone for key `[1]`. -/
theorem segment_get_snapshot_witness :
    ∃ v, testSegment.get [1] (some 5) = some v ∧ v ∈ testSegment.items ∧
      v.key.user_key = [1] ∧ v.key.seqno < 5 ∧
      ∀ it ∈ testSegment.items, it.key.user_key = [1] → it.key.seqno < 5 →
        it.key.seqno ≤ v.key.seqno :=
  (segment_get_snapshot testSegment [1] 5
      ⟨by decide, by decide, by decide, by decide, by decide⟩ (by decide)).1
    ⟨⟨⟨[1], 4, .tombstone⟩, []⟩, by decide, rfl, by decide⟩

/-- C5: `Segment::get` returns `None` whenever the snapshot seqno is at
or below the segment's minimum seqno, and `None` (for any snapshot
argument) whenever the key lies outside the segment's key range. -/
theorem segment_get_early_none (s : Segment) (key : UserKey) (sq : Nat) :
    (sq ≤ s.metadata.seqnos.1 → s.get key (some sq) = none)
  ∧ (∀ seqno : Option Nat, ¬ s.metadata.key_range.contains_key key →
      s.get key seqno = none) := by
  constructor
  · intro h
    unfold Segment.get
    simp [h]
  · intro seqno hout
    unfold Segment.get
    cases seqno with
    | none => simp [hout]
    | some sq2 =>
      by_cases h2 : sq2 ≤ s.metadata.seqnos.1
      · simp [h2]
      · simp [h2, hout]

/-- Witness for `segment_get_early_none`: a snapshot at seqno 2 (at or
below the minimum 3) returns `none`, and the out-of-range key `[3]`
returns `none`. -/
theorem segment_get_early_none_witness :
    testSegment.get [1] (some 2) = none ∧ testSegment.get [3] none = none :=
  ⟨(segment_get_early_none testSegment [1] 2).1 (by decide),
   (segment_get_early_none testSegment [3] 2).2 none (by decide)⟩
